import Mathlib

/-!
A shallow embedding of the `Pomp` migration engine (`src/index.js`) and proofs
about its reconciliation algorithm, execution order and version bookkeeping.

The engine's observable behaviour is modelled explicitly: each operation takes
the store state (the rows of `pomp.versions`) and returns its result, the new
state, and the ordered list of observable effects (queries issued, bodies
read, warnings emitted).  Failures of the injected `runSqlQuery` capability
are modelled by an environment saying which script blocks and which version
inserts succeed; schema creation (`CREATE ... IF NOT EXISTS`) and the plain
`select` are modelled as always succeeding.
-/

namespace Pomp

/-- One local migration: `version` parsed from the identifier's leading digit
run, `name` the raw identifier carried through unchanged
(`src/index.js` line 41). -/
structure Migration where
  version : Int
  name : String
  deriving Repr, DecidableEq

/-- Errors a Pomp operation can surface: the JavaScript `ReferenceError`
raised by the duplicate branch of `listLocalMigrations` (its message template
reads `versions[i].version` but no `i` is in scope), or a failed database
query. -/
inductive PompError where
  | referenceError (msg : String)
  | dbError (query : String)
  deriving Repr, DecidableEq

/-- Observable effects of one engine call, in order of occurrence: queries
sent to the database, migration bodies read, and warnings emitted to the
caller.  `src/index.js` never emits a warning; the constructor exists so that
absence of warnings is statable. -/
inductive Ev where
  | createSchema
  | createTable
  | selectVersions
  | runScript (text : String)
  | insertVersion (v : Int)
  | readBody (name : String)
  | warn (v : Int)
  deriving Repr, DecidableEq

/-- `true` exactly on warning events. -/
def Ev.isWarn : Ev → Bool
  | .warn _ => true
  | _ => false

/-- The rows of the `pomp.versions` table (its `version` column).  The primary
key makes a reachable state duplicate-free; the engine only adds rows through
the idempotent insert. -/
abbrev DbState := List Int

/-- `INSERT INTO pomp.versions ... ON CONFLICT (version) DO NOTHING`
(`src/index.js` lines 59 and 123). -/
def insertIfAbsent (v : Int) (db : DbState) : DbState :=
  if v ∈ db then db else db ++ [v]

/-- The environment behind `options.runSqlQuery`: whether a given DO-block
script succeeds when executed, and whether the version insert for a given
version succeeds. -/
structure Env where
  scriptOk : String → Bool
  insertOk : Int → Bool

/-- Decimal value of a digit run, as JavaScript `Number` gives for a captured
leading digit run (`src/index.js` lines 35 and 37). -/
def digitsVal (ds : List Char) : Nat :=
  ds.foldl (fun n c => n * 10 + (c.toNat - 48)) 0

/-- `name.match` of a leading digit run: `none` when the name has no leading
decimal digit (the JS match returns `null`). -/
def parseLeadingNat (s : String) : Option Nat :=
  let ds := s.data.takeWhile Char.isDigit
  if ds.isEmpty then none else some (digitsVal ds)

/-- `pathName.split` on a slash (`src/index.js` line 34); the result is never
empty. -/
def splitSlash : List Char → List (List Char)
  | [] => [[]]
  | c :: cs =>
    match splitSlash cs with
    | [] => [[]]
    | seg :: rest => if c = '/' then [] :: seg :: rest else (c :: seg) :: rest

/-- Last path segment: `pathName.split` on a slash, then `.at(-1)`. -/
def basename (s : String) : String :=
  String.mk ((splitSlash s.data).getLastD s.data)

/-- The collection loop of `Pomp.listLocalMigrations` (`src/index.js` lines
31-42): walk the raw identifiers, skip names without a leading digit run,
fail on a duplicate version.  The duplicate branch throws while building its
message from the undefined variable `i`, so JavaScript raises
`ReferenceError: i is not defined` there. -/
def collectLocal : List String → List Int → Except PompError (List Migration)
  | [], _ => .ok []
  | pathName :: rest, seen =>
    match parseLeadingNat (basename pathName) with
    | none => collectLocal rest seen
    | some v =>
      if (v : Int) ∈ seen then .error (.referenceError "i is not defined")
      else
        match collectLocal rest ((v : Int) :: seen) with
        | .error e => .error e
        | .ok tail => .ok (⟨(v : Int), pathName⟩ :: tail)

/-- Ascending order on migrations by version, the comparator of
`results.sort` (`src/index.js` line 43). -/
def migLE (a b : Migration) : Prop := a.version ≤ b.version

instance : DecidableRel migLE := fun a b => Int.decLe a.version b.version

instance : IsTotal Migration migLE := ⟨fun a b => Int.le_total a.version b.version⟩

instance : IsTrans Migration migLE := ⟨fun _ _ _ => Int.le_trans⟩

/-- `Pomp.listLocalMigrations` (`src/index.js` lines 29-45): collect the
surviving identifiers, then sort ascending by version. -/
def listLocalMigrations (ids : List String) : Except PompError (List Migration) :=
  match collectLocal ids [] with
  | .error e => .error e
  | .ok results => .ok (List.insertionSort migLE results)

/-- `select version from pomp.versions order by version`
(`src/index.js` line 149). -/
def listRemoteVersions (db : DbState) : List Int :=
  List.insertionSort (· ≤ ·) db

/-- The two-pointer merge loop of `Pomp.pendingMigrations` (`src/index.js`
lines 98-113), recursing on the local list.  The `else if
(local[i].version > remote[j]?.version) j += 1; continue` branch repeats with
`i` fixed until it no longer applies, which is the inner `dropWhile`; then
either the heads match (advance both, not pending) or the local head is
pending (advance `i` only).  Once the remote index passes the end,
`remote[j]?.version` is `undefined` in JS, both comparisons are false, and
the local entry is pushed as pending. -/
def mergePending : List Migration → List Int → List Migration
  | [], _ => []
  | l :: ls, rs =>
    match rs.dropWhile (fun r => decide (l.version > r)) with
    | [] => l :: mergePending ls []
    | r :: rest =>
      if l.version = r then mergePending ls rest
      else l :: mergePending ls (r :: rest)

/-- `Pomp.pendingMigrations` (`src/index.js` lines 95-114): list local (which
may throw before any query is issued), ensure tables and read the remote
versions, then merge.  No warning of any kind is emitted. -/
def pendingMigrations (ids : List String) (db : DbState) :
    Except PompError (List Migration) × DbState × List Ev :=
  match listLocalMigrations ids with
  | .error e => (.error e, db, [])
  | .ok localList =>
    (.ok (mergePending localList (listRemoteVersions db)), db,
      [.createSchema, .createTable, .selectVersions])

/-- `String.prototype.trim`: drop whitespace from both ends. -/
def trimChars (cs : List Char) : List Char :=
  ((cs.dropWhile Char.isWhitespace).reverse.dropWhile Char.isWhitespace).reverse

/-- The DO-block `Pomp.runMigration` sends (`src/index.js` lines 55-57): trim
the script text, strip one trailing semicolon (the `replace` of an anchored
single semicolon), substitute the no-op statement when the result is empty. -/
def buildScript (queryText : String) : String :=
  let t := trimChars queryText.data
  let t := if t.getLast? = some ';' then t.dropLast else t
  let body := if t.isEmpty then "perform 1".data else t
  String.mk ("DO LANGUAGE \x27plpgsql\x27 $$BEGIN\n".data ++ body ++ ";\nEND$$".data)

/-- `Pomp.runMigration` (`src/index.js` lines 54-60): execute the DO-block,
then the idempotent version insert; a failed `await` rejects the call at that
point, so a failing script means the insert is never issued. -/
def runMigration (env : Env) (db : DbState) (version : Int) (queryText : String) :
    Except PompError Unit × DbState × List Ev :=
  let q := buildScript queryText
  if env.scriptOk q then
    if env.insertOk version then
      (.ok (), insertIfAbsent version db, [.runScript q, .insertVersion version])
    else
      (.error (.dbError "insert"), db, [.runScript q, .insertVersion version])
  else
    (.error (.dbError q), db, [.runScript q])

/-- The `for` loop of `Pomp.runMigrations` (`src/index.js` lines 70-73): read
each pending migration's body, run it, and stop at the first rejection. -/
def runMigrationsLoop (env : Env) (readBody : String → String) :
    DbState → List Migration → Except PompError Unit × DbState × List Ev
  | db, [] => (.ok (), db, [])
  | db, m :: rest =>
    match runMigration env db m.version (readBody m.name) with
    | (.error e, db1, tr1) => (.error e, db1, .readBody m.name :: tr1)
    | (.ok _, db1, tr1) =>
      let r2 := runMigrationsLoop env readBody db1 rest
      (r2.1, r2.2.1, (.readBody m.name :: tr1) ++ r2.2.2)

/-- `Pomp.runMigrations` (`src/index.js` lines 68-74). -/
def runMigrations (env : Env) (readBody : String → String) (ids : List String)
    (db : DbState) : Except PompError Unit × DbState × List Ev :=
  match pendingMigrations ids db with
  | (.error e, db1, tr) => (.error e, db1, tr)
  | (.ok pend, db1, tr) =>
    let r := runMigrationsLoop env readBody db1 pend
    (r.1, r.2.1, tr ++ r.2.2)

/-- `Pomp.skipMigration` (`src/index.js` lines 122-124): the idempotent insert
alone, no validation of the version. -/
def skipMigration (env : Env) (db : DbState) (version : Int) :
    Except PompError Unit × DbState × List Ev :=
  if env.insertOk version then
    (.ok (), insertIfAbsent version db, [.insertVersion version])
  else
    (.error (.dbError "insert"), db, [.insertVersion version])

/-- Result shape of `Pomp.latestVersions`: each field `undefined` (here
`none`) when the corresponding list was empty. -/
structure VersionSummary where
  localVersion : Option Int
  remoteVersion : Option Int
  deriving Repr, DecidableEq

/-- `Pomp.latestVersions` (`src/index.js` lines 81-88): `.pop()` of each
list with optional chaining onto `.version`. -/
def latestVersions (ids : List String) (db : DbState) :
    Except PompError VersionSummary × DbState × List Ev :=
  match listLocalMigrations ids with
  | .error e => (.error e, db, [])
  | .ok localList =>
    (.ok ⟨(localList.getLast?).map Migration.version, (listRemoteVersions db).getLast?⟩,
      db, [.createSchema, .createTable, .selectVersions])

example : listLocalMigrations ["3-init.sql", "10-add-col.sql", "2-seed.sql"] =
    .ok [⟨2, "2-seed.sql"⟩, ⟨3, "3-init.sql"⟩, ⟨10, "10-add-col.sql"⟩] := by rfl

example : (pendingMigrations ["3-init.sql", "10-add-col.sql", "2-seed.sql"] [2]).1 =
    .ok [⟨3, "3-init.sql"⟩, ⟨10, "10-add-col.sql"⟩] := by rfl

example : (pendingMigrations ["1-a.sql", "1-b.sql"] []).1 =
    .error (.referenceError "i is not defined") := by rfl

example : buildScript "  " = "DO LANGUAGE \x27plpgsql\x27 $$BEGIN\nperform 1;\nEND$$" := by rfl

example : buildScript "select 1;;" =
    "DO LANGUAGE \x27plpgsql\x27 $$BEGIN\nselect 1;;\nEND$$" := by rfl

/-! ### The merge computes the pending set -/

/-- Dropping the scanned-past remote entries changes no membership for a
version that is not below the scan bound. -/
theorem mem_dropWhile_gt_iff (x v : Int) (R : List Int) (h : ¬ v < x) :
    (v ∈ R.dropWhile (fun r => decide (x > r))) ↔ v ∈ R := by
  constructor
  · intro hv
    exact List.Sublist.mem hv (List.IsSuffix.sublist (List.dropWhile_suffix _))
  · intro hv
    have hsplit := List.takeWhile_append_dropWhile (fun r => decide (x > r)) R
    have hv' : v ∈ R.takeWhile (fun r => decide (x > r)) ++
        R.dropWhile (fun r => decide (x > r)) := by rw [hsplit]; exact hv
    rcases List.mem_append.mp hv' with h1 | h2
    · have := List.mem_takeWhile_imp h1
      simp only [gt_iff_lt, decide_eq_true_eq] at this
      omega
    · exact h2

/-- The head surviving a `dropWhile` does not satisfy the predicate. -/
theorem dropWhile_head_not {p : Int → Bool} {R : List Int} {b : Int} {t : List Int}
    (h : R.dropWhile p = b :: t) : p b = false := by
  have := List.head?_dropWhile_not p R
  rw [h] at this
  simpa using this

/-- Core correctness of the two-pointer merge: with strictly ascending local
versions and an ascending remote list, the merge returns exactly the local
entries whose version is absent from the remote list, in local order. -/
theorem mergePending_eq_filter (L : List Migration) :
    ∀ R : List Int, (L.map Migration.version).Pairwise (· < ·) →
      R.Pairwise (· ≤ ·) →
      mergePending L R = L.filter (fun m => decide (m.version ∉ R)) := by
  induction L with
  | nil => intro R _ _; rfl
  | cons l ls ih =>
    intro R hL hR
    rw [List.map_cons, List.pairwise_cons] at hL
    obtain ⟨hlt, hls⟩ := hL
    have hlt' : ∀ m ∈ ls, l.version < m.version := by
      intro m hm
      exact hlt _ (List.mem_map_of_mem Migration.version hm)
    cases hdrop : R.dropWhile (fun r => decide (l.version > r)) with
    | nil =>
      have hnotmem : ∀ v : Int, ¬ v < l.version → v ∉ R := by
        intro v hv hmem
        have := List.dropWhile_eq_nil_iff.mp hdrop v hmem
        simp only [gt_iff_lt, decide_eq_true_eq] at this
        omega
      simp only [mergePending, hdrop]
      rw [ih [] hls List.Pairwise.nil]
      have hpl : (decide (l.version ∉ R)) = true := by
        simp only [decide_eq_true_eq]
        exact hnotmem l.version (lt_irrefl _)
      rw [List.filter_cons, hpl]
      simp only [if_true]
      congr 1
      apply List.filter_congr
      intro m hm
      apply decide_eq_decide.mpr
      have h1 : m.version ∉ R := hnotmem m.version (by have := hlt' m hm; omega)
      simp [h1]
    | cons r rest =>
      have hple : l.version ≤ r := by
        have := dropWhile_head_not hdrop
        simp only [gt_iff_lt, decide_eq_false_iff_not] at this
        omega
      have hsuf : (r :: rest).Pairwise (· ≤ ·) := by
        rw [← hdrop]
        exact hR.sublist (List.IsSuffix.sublist (List.dropWhile_suffix _))
      have hrest_le : ∀ w ∈ rest, r ≤ w := (List.pairwise_cons.mp hsuf).1
      have hrestPW : rest.Pairwise (· ≤ ·) := (List.pairwise_cons.mp hsuf).2
      have hmemR : ∀ v : Int, ¬ v < l.version → ((v ∈ r :: rest) ↔ v ∈ R) := by
        intro v hv
        rw [← hdrop]
        exact mem_dropWhile_gt_iff l.version v R hv
      simp only [mergePending, hdrop]
      by_cases heq : l.version = r
      · simp only [if_pos heq]
        rw [ih rest hls hrestPW]
        have hlin : l.version ∈ R := by
          apply (hmemR l.version (lt_irrefl _)).mp
          rw [heq]
          exact List.mem_cons_self r rest
        have hpl : (decide (l.version ∉ R)) = false := by simp [hlin]
        rw [List.filter_cons, hpl]
        simp only [Bool.false_eq_true, if_false]
        apply List.filter_congr
        intro m hm
        apply decide_eq_decide.mpr
        have hgt : l.version < m.version := hlt' m hm
        have : (m.version ∈ r :: rest) ↔ m.version ∈ R := hmemR m.version (by omega)
        rw [← this]
        simp only [List.mem_cons]
        constructor
        · intro hn hor
          rcases hor with hr | hrest
          · omega
          · exact hn hrest
        · intro hn hrest
          exact hn (Or.inr hrest)
      · simp only [if_neg heq]
        have hlr : l.version < r := lt_of_le_of_ne hple heq
        rw [ih (r :: rest) hls hsuf]
        have hlnotin : l.version ∉ R := by
          intro hmem
          rcases List.mem_cons.mp ((hmemR l.version (lt_irrefl _)).mpr hmem) with h1 | h2
          · omega
          · have := hrest_le _ h2
            omega
        have hpl : (decide (l.version ∉ R)) = true := by simp [hlnotin]
        rw [List.filter_cons, hpl]
        simp only [if_true]
        congr 1
        apply List.filter_congr
        intro m hm
        apply decide_eq_decide.mpr
        have := hmemR m.version (by have := hlt' m hm; omega)
        rw [this]

/-! ### The local listing -/

/-- Everything a successful collection returns came from the identifier list,
with the version parsed from the basename's leading digit run. -/
theorem collectLocal_mem :
    ∀ (ids : List String) (seen : List Int) (ms : List Migration),
      collectLocal ids seen = .ok ms →
      ∀ m ∈ ms, m.name ∈ ids ∧
        ∃ n : Nat, parseLeadingNat (basename m.name) = some n ∧ m.version = (n : Int) := by
  intro ids
  induction ids with
  | nil =>
    intro seen ms h m hm
    simp only [collectLocal, Except.ok.injEq] at h
    subst h
    cases hm
  | cons pathName rest ihp =>
    intro seen ms h m hm
    simp only [collectLocal] at h
    cases hp : parseLeadingNat (basename pathName) with
    | none =>
      rw [hp] at h
      have := ihp seen ms h m hm
      exact ⟨List.mem_cons_of_mem _ this.1, this.2⟩
    | some v =>
      rw [hp] at h
      simp only at h
      by_cases hseen : (v : Int) ∈ seen
      · rw [if_pos hseen] at h
        cases h
      · rw [if_neg hseen] at h
        cases hc : collectLocal rest ((v : Int) :: seen) with
        | error e => rw [hc] at h; cases h
        | ok tail =>
          rw [hc] at h
          simp only [Except.ok.injEq] at h
          subst h
          rcases List.mem_cons.mp hm with rfl | htail
          · exact ⟨List.mem_cons_self _ _, v, hp, rfl⟩
          · have := ihp ((v : Int) :: seen) tail hc m htail
            exact ⟨List.mem_cons_of_mem _ this.1, this.2⟩

/-- The versions a successful collection returns are pairwise distinct and
disjoint from the seen set. -/
theorem collectLocal_nodup :
    ∀ (ids : List String) (seen : List Int) (ms : List Migration),
      collectLocal ids seen = .ok ms →
      (ms.map Migration.version).Nodup ∧ ∀ v ∈ ms.map Migration.version, v ∉ seen := by
  intro ids
  induction ids with
  | nil =>
    intro seen ms h
    simp only [collectLocal, Except.ok.injEq] at h
    subst h
    exact ⟨List.nodup_nil, by intro v hv; cases hv⟩
  | cons pathName rest ihp =>
    intro seen ms h
    simp only [collectLocal] at h
    cases hp : parseLeadingNat (basename pathName) with
    | none =>
      rw [hp] at h
      exact ihp seen ms h
    | some v =>
      rw [hp] at h
      simp only at h
      by_cases hseen : (v : Int) ∈ seen
      · rw [if_pos hseen] at h
        cases h
      · rw [if_neg hseen] at h
        cases hc : collectLocal rest ((v : Int) :: seen) with
        | error e => rw [hc] at h; cases h
        | ok tail =>
          rw [hc] at h
          simp only [Except.ok.injEq] at h
          subst h
          obtain ⟨hnd, hdisj⟩ := ihp ((v : Int) :: seen) tail hc
          refine ⟨?_, ?_⟩
          · rw [List.map_cons, List.nodup_cons]
            exact ⟨fun hmem => (hdisj _ hmem) (List.mem_cons_self _ _), hnd⟩
          · intro w hw
            rcases List.mem_cons.mp hw with rfl | hw'
            · exact hseen
            · exact fun hmem => (hdisj _ hw') (List.mem_cons_of_mem _ hmem)

/-- An identifier whose basename has no leading digit is silently skipped:
inserting it anywhere leaves the collection unchanged. -/
theorem collectLocal_skip :
    ∀ (pre : List String) (bad : String) (post : List String) (seen : List Int),
      parseLeadingNat (basename bad) = none →
      collectLocal (pre ++ bad :: post) seen = collectLocal (pre ++ post) seen := by
  intro pre
  induction pre with
  | nil =>
    intro bad post seen hbad
    simp only [List.nil_append, collectLocal, hbad]
  | cons p pre' ih =>
    intro bad post seen hbad
    simp only [List.cons_append, collectLocal]
    cases hp : parseLeadingNat (basename p) with
    | none => exact ih bad post seen hbad
    | some v =>
      simp only
      by_cases hseen : (v : Int) ∈ seen
      · rw [if_pos hseen, if_pos hseen]
      · rw [if_neg hseen, if_neg hseen]
        simp only [List.append_eq]
        rw [ih bad post ((v : Int) :: seen) hbad]

/-- A successful local listing is sorted ascending by version. -/
theorem listLocal_ok_pairwise {ids : List String} {L : List Migration}
    (h : listLocalMigrations ids = .ok L) : L.Pairwise migLE := by
  unfold listLocalMigrations at h
  cases hc : collectLocal ids [] with
  | error e => rw [hc] at h; cases h
  | ok results =>
    rw [hc] at h
    simp only [Except.ok.injEq] at h
    subst h
    exact List.sorted_insertionSort migLE results

/-- The versions of a successful local listing are pairwise distinct. -/
theorem listLocal_ok_nodup {ids : List String} {L : List Migration}
    (h : listLocalMigrations ids = .ok L) : (L.map Migration.version).Nodup := by
  unfold listLocalMigrations at h
  cases hc : collectLocal ids [] with
  | error e => rw [hc] at h; cases h
  | ok results =>
    rw [hc] at h
    simp only [Except.ok.injEq] at h
    subst h
    have hperm := (List.perm_insertionSort migLE results).map Migration.version
    exact hperm.nodup_iff.mpr (collectLocal_nodup ids [] results hc).1

/-- The versions of a successful local listing are strictly ascending. -/
theorem listLocal_ok_lt {ids : List String} {L : List Migration}
    (h : listLocalMigrations ids = .ok L) :
    (L.map Migration.version).Pairwise (· < ·) := by
  have h1 : (L.map Migration.version).Pairwise (· ≤ ·) := by
    rw [List.pairwise_map]
    exact listLocal_ok_pairwise h
  exact List.Sorted.lt_of_le h1 (listLocal_ok_nodup h)

/-- Provenance of each returned migration: its raw identifier is in the input
and its version is the parse of the basename's leading digit run. -/
theorem listLocal_ok_mem {ids : List String} {L : List Migration}
    (h : listLocalMigrations ids = .ok L) :
    ∀ m ∈ L, m.name ∈ ids ∧
      ∃ n : Nat, parseLeadingNat (basename m.name) = some n ∧ m.version = (n : Int) := by
  unfold listLocalMigrations at h
  cases hc : collectLocal ids [] with
  | error e => rw [hc] at h; cases h
  | ok results =>
    rw [hc] at h
    simp only [Except.ok.injEq] at h
    subst h
    intro m hm
    exact collectLocal_mem ids [] results hc m
      ((List.perm_insertionSort migLE results).mem_iff.mp hm)

/-- Completeness of the collection: every identifier whose basename parses
appears in a successful result with that parsed version. -/
theorem collectLocal_complete :
    ∀ (ids : List String) (seen : List Int) (ms : List Migration),
      collectLocal ids seen = .ok ms →
      ∀ id ∈ ids, ∀ n : Nat, parseLeadingNat (basename id) = some n →
        ∃ m ∈ ms, m.name = id ∧ m.version = (n : Int) := by
  intro ids
  induction ids with
  | nil =>
    intro seen ms _ id hid
    cases hid
  | cons pathName rest ihp =>
    intro seen ms h id hid n hn
    simp only [collectLocal] at h
    cases hp : parseLeadingNat (basename pathName) with
    | none =>
      rw [hp] at h
      rcases List.mem_cons.mp hid with rfl | hid'
      · rw [hp] at hn; cases hn
      · exact ihp seen ms h id hid' n hn
    | some v =>
      rw [hp] at h
      simp only at h
      by_cases hseen : (v : Int) ∈ seen
      · rw [if_pos hseen] at h
        cases h
      · rw [if_neg hseen] at h
        cases hc : collectLocal rest ((v : Int) :: seen) with
        | error e => rw [hc] at h; cases h
        | ok tail =>
          rw [hc] at h
          simp only [Except.ok.injEq] at h
          subst h
          rcases List.mem_cons.mp hid with rfl | hid'
          · rw [hp, Option.some.injEq] at hn
            exact ⟨⟨(v : Int), id⟩, List.mem_cons_self _ _, rfl, by rw [hn]⟩
          · obtain ⟨m, hm, hname, hver⟩ := ihp ((v : Int) :: seen) tail hc id hid' n hn
            exact ⟨m, List.mem_cons_of_mem _ hm, hname, hver⟩

/-- Completeness lifted through the sort. -/
theorem listLocal_ok_complete {ids : List String} {L : List Migration}
    (h : listLocalMigrations ids = .ok L) :
    ∀ id ∈ ids, ∀ n : Nat, parseLeadingNat (basename id) = some n →
      ∃ m ∈ L, m.name = id ∧ m.version = (n : Int) := by
  unfold listLocalMigrations at h
  cases hc : collectLocal ids [] with
  | error e => rw [hc] at h; cases h
  | ok results =>
    rw [hc] at h
    simp only [Except.ok.injEq] at h
    subst h
    intro id hid n hn
    obtain ⟨m, hm, hrest⟩ := collectLocal_complete ids [] results hc id hid n hn
    exact ⟨m, (List.perm_insertionSort migLE results).mem_iff.mpr hm, hrest⟩

/-- Lifted skip invariance: the whole listing ignores identifiers whose
basename has no leading digit. -/
theorem listLocal_skip (pre : List String) (bad : String) (post : List String)
    (hbad : parseLeadingNat (basename bad) = none) :
    listLocalMigrations (pre ++ bad :: post) = listLocalMigrations (pre ++ post) := by
  unfold listLocalMigrations
  rw [collectLocal_skip pre bad post [] hbad]

/-! ### The version store -/

theorem mem_insertIfAbsent_self (v : Int) (db : DbState) : v ∈ insertIfAbsent v db := by
  unfold insertIfAbsent
  split
  · assumption
  · exact List.mem_append.mpr (Or.inr (List.mem_singleton.mpr rfl))

theorem mem_insertIfAbsent_of_mem {w : Int} {db : DbState} (v : Int) (h : w ∈ db) :
    w ∈ insertIfAbsent v db := by
  unfold insertIfAbsent
  split
  · exact h
  · exact List.mem_append.mpr (Or.inl h)

/-- The idempotent insert leaves exactly one row for `v` whenever the store
had at most one (the primary-key invariant). -/
theorem count_insertIfAbsent_self (v : Int) (db : DbState) (h : db.count v ≤ 1) :
    (insertIfAbsent v db).count v = 1 := by
  unfold insertIfAbsent
  split
  · next hmem =>
    have h1 : 0 < db.count v := List.count_pos_iff.mpr hmem
    omega
  · next hmem =>
    rw [List.count_append]
    rw [List.count_eq_zero.mpr hmem]
    simp

/-- Inserting a version already stored once does not change any count. -/
theorem insertIfAbsent_of_mem {v : Int} {db : DbState} (h : v ∈ db) :
    insertIfAbsent v db = db := by
  unfold insertIfAbsent
  rw [if_pos h]

theorem listRemote_pairwise (db : DbState) :
    (listRemoteVersions db).Pairwise (· ≤ ·) :=
  List.sorted_insertionSort (· ≤ ·) db

theorem mem_listRemote {db : DbState} {v : Int} :
    v ∈ listRemoteVersions db ↔ v ∈ db :=
  List.mem_insertionSort (· ≤ ·)

/-! ### The run loop -/

/-- What a successful single run did: the script and the insert both
succeeded, the version was recorded, and the two queries were issued in
order. -/
theorem runMigration_ok {env : Env} {db : DbState} {version : Int} {qt : String}
    {db1 : DbState} {tr1 : List Ev}
    (h : runMigration env db version qt = (.ok (), db1, tr1)) :
    db1 = insertIfAbsent version db ∧
    env.scriptOk (buildScript qt) = true ∧
    env.insertOk version = true ∧
    tr1 = [.runScript (buildScript qt), .insertVersion version] := by
  unfold runMigration at h
  by_cases hs : env.scriptOk (buildScript qt)
  · rw [if_pos hs] at h
    by_cases hi : env.insertOk version
    · rw [if_pos hi] at h
      simp only [Prod.mk.injEq] at h
      exact ⟨h.2.1.symm, hs, hi, h.2.2.symm⟩
    · rw [if_neg hi] at h
      simp only [Prod.mk.injEq] at h
      cases h.1
  · rw [if_neg hs] at h
    simp only [Prod.mk.injEq] at h
    cases h.1

/-- The store only grows across the loop, whatever the outcome. -/
theorem runMigrationsLoop_db_mono (env : Env) (rb : String → String) :
    ∀ (ms : List Migration) (db : DbState) (v : Int), v ∈ db →
      v ∈ (runMigrationsLoop env rb db ms).2.1 := by
  intro ms
  induction ms with
  | nil => intro db v hv; exact hv
  | cons m rest ih =>
    intro db v hv
    simp only [runMigrationsLoop]
    cases hrm : runMigration env db m.version (rb m.name) with
    | mk r1 r2 =>
      cases r2 with
      | mk db1 tr1 =>
        have hdb1 : v ∈ db1 := by
          unfold runMigration at hrm
          by_cases hs : env.scriptOk (buildScript (rb m.name))
          · rw [if_pos hs] at hrm
            by_cases hi : env.insertOk m.version
            · rw [if_pos hi] at hrm
              simp only [Prod.mk.injEq] at hrm
              rw [← hrm.2.1]
              exact mem_insertIfAbsent_of_mem _ hv
            · rw [if_neg hi] at hrm
              simp only [Prod.mk.injEq] at hrm
              rw [← hrm.2.1]
              exact hv
          · rw [if_neg hs] at hrm
            simp only [Prod.mk.injEq] at hrm
            rw [← hrm.2.1]
            exact hv
        cases r1 with
        | error e => exact hdb1
        | ok u => exact ih db1 v hdb1

/-- A loop that finished with no error recorded every pending version and
kept every version the store already had. -/
theorem runMigrationsLoop_ok (env : Env) (rb : String → String) :
    ∀ (ms : List Migration) (db : DbState),
      (runMigrationsLoop env rb db ms).1 = .ok () →
      (∀ v ∈ db, v ∈ (runMigrationsLoop env rb db ms).2.1) ∧
      (∀ m ∈ ms, m.version ∈ (runMigrationsLoop env rb db ms).2.1) := by
  intro ms
  induction ms with
  | nil =>
    intro db _
    exact ⟨fun v hv => hv, by intro m hm; cases hm⟩
  | cons m rest ih =>
    intro db hok
    simp only [runMigrationsLoop] at hok ⊢
    cases hrm : runMigration env db m.version (rb m.name) with
    | mk r1 r2 =>
      cases r2 with
      | mk db1 tr1 =>
        rw [hrm] at hok
        cases r1 with
        | error e => cases hok
        | ok u =>
          cases u
          obtain ⟨hro, _, _, _⟩ := runMigration_ok hrm
          subst hro
          obtain ⟨hmono, hall⟩ := ih (insertIfAbsent m.version db) hok
          refine ⟨?_, ?_⟩
          · intro v hv
            exact hmono v (mem_insertIfAbsent_of_mem _ hv)
          · intro m' hm'
            rcases List.mem_cons.mp hm' with rfl | hrest
            · exact hmono m'.version (mem_insertIfAbsent_self _ _)
            · exact hall m' hrest

/-! ### Claim theorems -/

/-- C1: for every local list `L` and remote list `R` with pairwise-distinct
ascending versions, the pending merge returns exactly the elements of `L`
whose version is absent from `R` in `L`'s order; the result is unchanged by
inserting into `R` extra versions absent from `L`, never contains a version
of `R` (so orphans never appear and never displace later local entries), and
holds no local migration more than once. -/
theorem pending_exact (L : List Migration) (R : List Int)
    (hL : (L.map Migration.version).Pairwise (· < ·))
    (hR : R.Pairwise (· < ·)) :
    mergePending L R = L.filter (fun m => decide (m.version ∉ R)) ∧
    (∀ R' : List Int, R'.Pairwise (· < ·) →
      (∀ m ∈ L, (m.version ∈ R' ↔ m.version ∈ R)) →
      mergePending L R' = mergePending L R) ∧
    (∀ m ∈ mergePending L R, m.version ∉ R) ∧
    (mergePending L R).Nodup := by
  have h1 := mergePending_eq_filter L R hL (hR.imp fun h => le_of_lt h)
  refine ⟨h1, ?_, ?_, ?_⟩
  · intro R' hR' hsame
    have h2 := mergePending_eq_filter L R' hL (hR'.imp fun h => le_of_lt h)
    rw [h1, h2]
    apply List.filter_congr
    intro m hm
    exact decide_eq_decide.mpr (by rw [hsame m hm])
  · intro m hm
    rw [h1] at hm
    have := List.of_mem_filter hm
    simpa using this
  · rw [h1]
    have hnd : (L.map Migration.version).Nodup := hL.imp fun h => ne_of_lt h
    exact (List.Nodup.of_map _ hnd).filter _

/-- Witness for C1 at local versions 1 and 5, remote 1, 3, 5. -/
theorem pending_exact_witness :
    mergePending [⟨1, "1-a.sql"⟩, ⟨5, "5-b.sql"⟩] [1, 3, 5] = [] :=
  ((pending_exact [⟨1, "1-a.sql"⟩, ⟨5, "5-b.sql"⟩] [1, 3, 5]
    (by decide) (by decide)).1).trans (by rfl)

/-- C2: round-trip — if `runMigrations` completes with no error from any
local identifier list and any store state, a subsequent `pendingMigrations`
returns the empty list. -/
theorem roundTrip_pending_empty (env : Env) (rb : String → String)
    (ids : List String) (db0 db1 : DbState) (tr : List Ev)
    (h : runMigrations env rb ids db0 = (.ok (), db1, tr)) :
    (pendingMigrations ids db1).1 = .ok [] := by
  cases hL : listLocalMigrations ids with
  | error e =>
    simp only [runMigrations, pendingMigrations, hL] at h
    simp at h
  | ok L =>
    simp only [runMigrations, pendingMigrations, hL] at h
    rw [Prod.mk.injEq, Prod.mk.injEq] at h
    obtain ⟨h1, h2, -⟩ := h
    obtain ⟨hmono, hall⟩ :=
      runMigrationsLoop_ok env rb (mergePending L (listRemoteVersions db0)) db0 h1
    rw [h2] at hmono hall
    simp only [pendingMigrations, hL]
    rw [mergePending_eq_filter L (listRemoteVersions db1)
      (listLocal_ok_lt hL) (listRemote_pairwise db1)]
    suffices hs : L.filter (fun m => decide (m.version ∉ listRemoteVersions db1)) = [] by
      rw [hs]
    rw [List.filter_eq_nil_iff]
    intro m hm
    simp only [decide_eq_true_eq, not_not]
    rw [mem_listRemote]
    by_cases hin : m.version ∈ db0
    · exact hmono _ hin
    · apply hall m
      rw [mergePending_eq_filter L (listRemoteVersions db0)
        (listLocal_ok_lt hL) (listRemote_pairwise db0)]
      refine List.mem_filter.mpr ⟨hm, ?_⟩
      simp only [decide_eq_true_eq]
      rw [mem_listRemote]
      exact hin

/-- Witness for C2: a concrete successful run leaves nothing pending. -/
theorem roundTrip_pending_empty_witness :
    (pendingMigrations ["1-a.sql"] [(1 : Int)]).1 = .ok [] :=
  roundTrip_pending_empty ⟨fun _ => true, fun _ => true⟩ (fun _ => "")
    ["1-a.sql"] [] [1]
    [.createSchema, .createTable, .selectVersions, .readBody "1-a.sql",
      .runScript (buildScript ""), .insertVersion 1] (by rfl)

/-- C3: two identifiers parsing to the same version make the operation fail
before any database interaction (the effect trace is empty) and abort
entirely — but the error the code actually raises is the JavaScript
`ReferenceError` from the broken message template (`src/index.js` line 38
reads `versions[i].version` with no `i` in scope), not a validation error
naming duplicate local migration versions. -/
theorem duplicate_versions_abort :
    listLocalMigrations ["1-a.sql", "1-b.sql"] =
      .error (.referenceError "i is not defined") ∧
    pendingMigrations ["1-a.sql", "1-b.sql"] [] =
      (.error (.referenceError "i is not defined"), [], []) :=
  ⟨by rfl, by rfl⟩

/-- A failing single run leaves the store untouched and reports the error. -/
theorem runMigration_fails {env : Env} {db : DbState} {version : Int} {qt : String}
    (h : env.scriptOk (buildScript qt) = false ∨ env.insertOk version = false) :
    ∃ e, runMigration env db version qt =
      (.error e, db,
        if env.scriptOk (buildScript qt) then
          [.runScript (buildScript qt), .insertVersion version]
        else [.runScript (buildScript qt)]) := by
  unfold runMigration
  by_cases hs : env.scriptOk (buildScript qt)
  · rcases h with h | h
    · rw [h] at hs; cases hs
    · exact ⟨.dbError "insert", by simp [hs, h]⟩
  · exact ⟨.dbError (buildScript qt), by simp [hs]⟩

/-- Inductive core of fail-fast: the loop on `done ++ bad :: rest` behaves
identically to the loop on `done ++ [bad]` when all of `done` succeeds and
`bad` fails. -/
theorem runLoop_stops (env : Env) (rb : String → String) (db : DbState)
    (done : List Migration) (bad : Migration) (rest : List Migration)
    (hdone : ∀ m ∈ done, env.scriptOk (buildScript (rb m.name)) = true ∧
      env.insertOk m.version = true)
    (hbad : env.scriptOk (buildScript (rb bad.name)) = false ∨
      env.insertOk bad.version = false) :
    runMigrationsLoop env rb db (done ++ bad :: rest) =
      runMigrationsLoop env rb db (done ++ [bad]) ∧
    (∃ e : PompError,
      (runMigrationsLoop env rb db (done ++ bad :: rest)).1 = .error e) ∧
    (∀ m ∈ done, m.version ∈ (runMigrationsLoop env rb db (done ++ bad :: rest)).2.1) := by
  induction done generalizing db with
  | nil =>
    obtain ⟨e, hrm⟩ := @runMigration_fails env db bad.version (rb bad.name) hbad
    refine ⟨?_, ⟨e, ?_⟩, ?_⟩
    · simp [runMigrationsLoop, hrm]
    · simp [runMigrationsLoop, hrm]
    · intro m hm
      cases hm
  | cons m done' ih =>
    have hm := hdone m (List.mem_cons_self _ _)
    have hrm : runMigration env db m.version (rb m.name) =
        (.ok (), insertIfAbsent m.version db,
          [.runScript (buildScript (rb m.name)), .insertVersion m.version]) := by
      unfold runMigration
      simp [hm.1, hm.2]
    have hdone' : ∀ m' ∈ done', env.scriptOk (buildScript (rb m'.name)) = true ∧
        env.insertOk m'.version = true :=
      fun m' hm' => hdone m' (List.mem_cons_of_mem _ hm')
    obtain ⟨ihEq, ⟨e, ihErr⟩, ihRec⟩ := ih (insertIfAbsent m.version db) hdone'
    simp only [List.cons_append, runMigrationsLoop, hrm, List.append_eq]
    refine ⟨by rw [ihEq], ⟨e, ihErr⟩, ?_⟩
    intro m' hm'
    rcases List.mem_cons.mp hm' with rfl | hrest
    · exact runMigrationsLoop_db_mono env rb _ _ _ (mem_insertIfAbsent_self _ _)
    · exact ihRec m' hrest

/-- C4: `runMigrations` is fail-fast.  Decompose the pending list as
`done ++ bad :: rest` where every migration in `done` succeeds and `bad`
fails (its script or its version insert); then the loop's entire outcome —
result, store and effect trace — is identical to running `done ++ [bad]`
alone, so nothing in `rest` is ever attempted (no body read, no script
executed), the run reports an error, every migration in `done` remains
recorded in the final store, and `runMigrations` itself returns the
truncated outcome whenever its pending computation produced that list. -/
theorem runLoop_failFast (env : Env) (rb : String → String) (db : DbState)
    (done : List Migration) (bad : Migration) (rest : List Migration)
    (hdone : ∀ m ∈ done, env.scriptOk (buildScript (rb m.name)) = true ∧
      env.insertOk m.version = true)
    (hbad : env.scriptOk (buildScript (rb bad.name)) = false ∨
      env.insertOk bad.version = false) :
    runMigrationsLoop env rb db (done ++ bad :: rest) =
      runMigrationsLoop env rb db (done ++ [bad]) ∧
    (∃ e : PompError,
      (runMigrationsLoop env rb db (done ++ bad :: rest)).1 = .error e) ∧
    (∀ m ∈ done, m.version ∈ (runMigrationsLoop env rb db (done ++ bad :: rest)).2.1) ∧
    (∀ (ids : List String) (tr0 : List Ev),
      pendingMigrations ids db = (.ok (done ++ bad :: rest), db, tr0) →
      runMigrations env rb ids db =
        ((runMigrationsLoop env rb db (done ++ [bad])).1,
          (runMigrationsLoop env rb db (done ++ [bad])).2.1,
          tr0 ++ (runMigrationsLoop env rb db (done ++ [bad])).2.2)) := by
  obtain ⟨hEq, hErr, hRec⟩ := runLoop_stops env rb db done bad rest hdone hbad
  refine ⟨hEq, hErr, hRec, ?_⟩
  intro ids tr0 hpend
  unfold runMigrations
  rw [hpend]
  simp only
  rw [hEq]

/-- Witness for C4: with every script failing, a two-element pending list
behaves identically to its one-element prefix. -/
theorem runLoop_failFast_witness :
    runMigrationsLoop ⟨fun _ => false, fun _ => true⟩ (fun _ => "") []
        [⟨2, "2-b.sql"⟩, ⟨3, "3-c.sql"⟩] =
      runMigrationsLoop ⟨fun _ => false, fun _ => true⟩ (fun _ => "") []
        [⟨2, "2-b.sql"⟩] :=
  (runLoop_failFast ⟨fun _ => false, fun _ => true⟩ (fun _ => "") []
    [] ⟨2, "2-b.sql"⟩ [⟨3, "3-c.sql"⟩]
    (by intro m hm; cases hm) (Or.inl rfl)).1

/-- C5: the version insert is issued only after the script block succeeded.
If the script fails the call errors with only the script query in its trace
and the store unchanged — the version is never recorded; if the script
succeeds the insert follows it in the trace (and on insert failure the
version is still not recorded). -/
theorem insert_only_after_script (env : Env) (db : DbState) (v : Int) (t : String) :
    (env.scriptOk (buildScript t) = false →
      runMigration env db v t =
        (.error (.dbError (buildScript t)), db, [.runScript (buildScript t)])) ∧
    (env.scriptOk (buildScript t) = true → env.insertOk v = true →
      runMigration env db v t =
        (.ok (), insertIfAbsent v db,
          [.runScript (buildScript t), .insertVersion v])) ∧
    (env.scriptOk (buildScript t) = true → env.insertOk v = false →
      runMigration env db v t =
        (.error (.dbError "insert"), db,
          [.runScript (buildScript t), .insertVersion v])) := by
  refine ⟨?_, ?_, ?_⟩
  · intro hs; unfold runMigration; simp [hs]
  · intro hs hi; unfold runMigration; simp [hs, hi]
  · intro hs hi; unfold runMigration; simp [hs, hi]

/-- Witness for C5: a failing script records nothing and issues no insert. -/
theorem insert_only_after_script_witness :
    runMigration ⟨fun _ => false, fun _ => true⟩ [] 1 "x" =
      (.error (.dbError (buildScript "x")), [], [.runScript (buildScript "x")]) :=
  (insert_only_after_script ⟨fun _ => false, fun _ => true⟩ [] 1 "x").1 rfl

/-- C6 counterexample: at local versions 1 and 5 with remote 1, 3 and 5,
`pendingMigrations` returns the empty list but its effect trace carries no
warning event at all — the orphaned remote version 3 is skipped silently, so
no orphan signal is raised for version 3, contrary to the claim. -/
theorem orphan_no_signal_counterexample :
    (pendingMigrations ["1-a.sql", "5-b.sql"] [1, 3, 5]).1 = .ok [] ∧
    ((pendingMigrations ["1-a.sql", "5-b.sql"] [1, 3, 5]).2.2).filter Ev.isWarn = [] :=
  ⟨by rfl, by rfl⟩

/-- C6 amended: on a remote version with no matching local migration the
merge advances only the remote index and continues without aborting; for
local versions 1 and 5 with remote 1, 3 and 5 the result is empty — but no
orphan signal is emitted to the caller (the orphan is skipped silently). -/
theorem orphan_skipped_silently :
    (∀ (l : Migration) (ls : List Migration) (r : Int) (rs : List Int),
      l.version > r → mergePending (l :: ls) (r :: rs) = mergePending (l :: ls) rs) ∧
    pendingMigrations ["1-a.sql", "5-b.sql"] [1, 3, 5] =
      (.ok [], [1, 3, 5], [.createSchema, .createTable, .selectVersions]) ∧
    ((pendingMigrations ["1-a.sql", "5-b.sql"] [1, 3, 5]).2.2).filter Ev.isWarn = [] := by
  refine ⟨?_, by rfl, by rfl⟩
  intro l ls r rs h
  have hstep : (r :: rs).dropWhile (fun x => decide (l.version > x)) =
      rs.dropWhile (fun x => decide (l.version > x)) := by
    rw [List.dropWhile_cons]
    simp [h]
  simp only [mergePending, hstep]

/-- Witness for C6's amended statement at a concrete orphan. -/
theorem orphan_skipped_silently_witness :
    mergePending [⟨5, "5-b.sql"⟩] [3] = mergePending [⟨5, "5-b.sql"⟩] [] :=
  orphan_skipped_silently.1 ⟨5, "5-b.sql"⟩ [] 3 [] (by decide)

/-- C7: `listLocalMigrations` takes the basename of each raw identifier,
parses its leading digit run as the version, silently skips identifiers
whose basename has no leading digit, and returns the survivors sorted
ascending by version; for identifiers `3-init.sql`, `10-add-col.sql`,
`2-seed.sql` with remote version 2, `pendingMigrations` returns the
migrations with versions 3 then 10 in that order. -/
theorem listLocal_spec :
    (∀ (ids : List String) (L : List Migration), listLocalMigrations ids = .ok L →
      (L.map Migration.version).Pairwise (· < ·) ∧
      (∀ m ∈ L, m.name ∈ ids ∧
        ∃ n : Nat, parseLeadingNat (basename m.name) = some n ∧ m.version = (n : Int)) ∧
      (∀ id ∈ ids, ∀ n : Nat, parseLeadingNat (basename id) = some n →
        ∃ m ∈ L, m.name = id ∧ m.version = (n : Int))) ∧
    (∀ (pre : List String) (bad : String) (post : List String),
      parseLeadingNat (basename bad) = none →
      listLocalMigrations (pre ++ bad :: post) = listLocalMigrations (pre ++ post)) ∧
    pendingMigrations ["3-init.sql", "10-add-col.sql", "2-seed.sql"] [2] =
      (.ok [⟨3, "3-init.sql"⟩, ⟨10, "10-add-col.sql"⟩], [2],
        [.createSchema, .createTable, .selectVersions]) := by
  refine ⟨?_, listLocal_skip, by rfl⟩
  intro ids L h
  exact ⟨listLocal_ok_lt h, listLocal_ok_mem h, listLocal_ok_complete h⟩

/-- Witness for C7: the listing is strictly ascending on a concrete input and
a digit-free identifier is skipped without error. -/
theorem listLocal_spec_witness :
    ((([⟨2, "2-seed.sql"⟩, ⟨3, "3-init.sql"⟩, ⟨10, "10-add-col.sql"⟩] :
        List Migration).map Migration.version).Pairwise (· < ·)) ∧
    listLocalMigrations ["3-init.sql", "readme.txt"] = listLocalMigrations ["3-init.sql"] :=
  ⟨(listLocal_spec.1 ["3-init.sql", "10-add-col.sql", "2-seed.sql"]
      [⟨2, "2-seed.sql"⟩, ⟨3, "3-init.sql"⟩, ⟨10, "10-add-col.sql"⟩] (by rfl)).1,
    listLocal_spec.2.1 ["3-init.sql"] "readme.txt" [] (by rfl)⟩

/-- The final store of a single run is either unchanged or has the version
inserted idempotently. -/
theorem runMigration_db_cases (env : Env) (db : DbState) (version : Int) (qt : String) :
    (runMigration env db version qt).2.1 = db ∨
    (runMigration env db version qt).2.1 = insertIfAbsent version db := by
  unfold runMigration
  by_cases hs : env.scriptOk (buildScript qt)
  · by_cases hi : env.insertOk version
    · right; simp [hs, hi]
    · left; simp [hs, hi]
  · left; simp [hs]

/-- C8: the version write is idempotent and unvalidated — for every integer
`v`, with no requirement that `v` match any local migration, two calls of
`skipMigration` leave exactly one stored row for `v`, and `runMigration`
followed by `skipMigration` produces neither a second row nor an error. -/
theorem skip_idempotent (env : Env) (db : DbState) (v : Int) (t : String)
    (hins : env.insertOk v = true) (hdb : db.count v ≤ 1) :
    (skipMigration env db v).1 = .ok () ∧
    (skipMigration env ((skipMigration env db v).2.1) v).1 = .ok () ∧
    ((skipMigration env ((skipMigration env db v).2.1) v).2.1).count v = 1 ∧
    (skipMigration env ((runMigration env db v t).2.1) v).1 = .ok () ∧
    ((skipMigration env ((runMigration env db v t).2.1) v).2.1).count v = 1 := by
  have hskip : ∀ d : DbState,
      skipMigration env d v = (.ok (), insertIfAbsent v d, [.insertVersion v]) := by
    intro d
    unfold skipMigration
    simp [hins]
  have hcount1 : (insertIfAbsent v db).count v = 1 := count_insertIfAbsent_self v db hdb
  refine ⟨by rw [hskip], by rw [hskip, hskip], ?_, by rw [hskip], ?_⟩
  · rw [hskip, hskip]
    simp only
    apply count_insertIfAbsent_self
    rw [hcount1]
  · rw [hskip]
    simp only
    apply count_insertIfAbsent_self
    rcases runMigration_db_cases env db v t with hc | hc
    · rw [hc]; exact hdb
    · rw [hc, hcount1]

/-- Witness for C8 at the unvalidated version 42 on an empty store. -/
theorem skip_idempotent_witness :
    ((skipMigration ⟨fun _ => true, fun _ => true⟩
        ((skipMigration ⟨fun _ => true, fun _ => true⟩ [] 42).2.1) 42).2.1).count 42 = 1 :=
  (skip_idempotent ⟨fun _ => true, fun _ => true⟩ [] 42 "" rfl (by decide)).2.2.1

/-- A last element of an ascending list is a maximum. -/
theorem sorted_getLast?_max :
    ∀ l : List Int, l.Pairwise (· ≤ ·) →
      ∀ v, l.getLast? = some v → v ∈ l ∧ ∀ w ∈ l, w ≤ v := by
  intro l
  induction l with
  | nil => intro _ v h; cases h
  | cons a t ih =>
    intro hp v h
    cases t with
    | nil =>
      rw [List.getLast?_singleton, Option.some.injEq] at h
      subst h
      exact ⟨List.mem_singleton.mpr rfl, by intro w hw; rw [List.mem_singleton.mp hw]⟩
    | cons b t' =>
      rw [List.getLast?_cons_cons] at h
      obtain ⟨hab, hp'⟩ := List.pairwise_cons.mp hp
      obtain ⟨hv, hmax⟩ := ih hp' v h
      refine ⟨List.mem_cons_of_mem _ hv, ?_⟩
      intro w hw
      rcases List.mem_cons.mp hw with rfl | hw'
      · exact hab v hv
      · exact hmax w hw'

/-- C9: `latestVersions` returns the maximum local version and the maximum
remote version, each field absent exactly when the corresponding list is
empty; with no local migrations and remote versions `[7]` it returns no
local version and remote version 7. -/
theorem latestVersions_max (ids : List String) (db : DbState) (L : List Migration)
    (h : listLocalMigrations ids = .ok L) :
    latestVersions ids db =
      (.ok ⟨(L.map Migration.version).getLast?, (listRemoteVersions db).getLast?⟩, db,
        [.createSchema, .createTable, .selectVersions]) ∧
    ((L.map Migration.version).getLast? = none ↔ L = []) ∧
    (∀ v, (L.map Migration.version).getLast? = some v →
      v ∈ L.map Migration.version ∧ ∀ w ∈ L.map Migration.version, w ≤ v) ∧
    ((listRemoteVersions db).getLast? = none ↔ db = []) ∧
    (∀ v, (listRemoteVersions db).getLast? = some v → v ∈ db ∧ ∀ w ∈ db, w ≤ v) ∧
    latestVersions [] [7] =
      (.ok ⟨none, some 7⟩, [7], [.createSchema, .createTable, .selectVersions]) := by
  have hperm : (listRemoteVersions db).Perm db := List.perm_insertionSort _ db
  refine ⟨?_, ?_, ?_, ?_, ?_, by rfl⟩
  · simp only [latestVersions, h]
    rw [← List.getLast?_map]
  · rw [List.getLast?_eq_none_iff, List.map_eq_nil_iff]
  · intro v hv
    have hle : (L.map Migration.version).Pairwise (· ≤ ·) := by
      rw [List.pairwise_map]
      exact listLocal_ok_pairwise h
    exact sorted_getLast?_max _ hle v hv
  · rw [List.getLast?_eq_none_iff]
    constructor
    · intro hnil
      have hlen := hperm.length_eq
      rw [hnil] at hlen
      exact List.length_eq_zero.mp hlen.symm
    · intro hnil
      subst hnil
      rfl
  · intro v hv
    obtain ⟨hm, hmax⟩ := sorted_getLast?_max _ (listRemote_pairwise db) v hv
    exact ⟨mem_listRemote.mp hm, fun w hw => hmax w (mem_listRemote.mpr hw)⟩

/-- Witness for C9 on empty local identifiers and remote store `[7]`. -/
theorem latestVersions_max_witness :
    latestVersions [] [7] =
      (.ok ⟨none, some 7⟩, [7], [.createSchema, .createTable, .selectVersions]) :=
  (latestVersions_max [] [7] [] (by rfl)).2.2.2.2.2

/-- A whitespace-only character list trims to nothing. -/
theorem trimChars_eq_nil {cs : List Char} (h : ∀ c ∈ cs, c.isWhitespace) :
    trimChars cs = [] := by
  unfold trimChars
  rw [List.dropWhile_eq_nil_iff.mpr h]
  rfl

/-- C10: `runMigration` trims the script text and strips at most one trailing
semicolon before embedding it in the DO-block, substituting `perform 1` when
the trimmed text is empty; hence a whitespace-only script still issues the
well-formed no-op block, succeeds, and records the version.  A script ending
in two semicolons keeps one after the single strip. -/
theorem empty_script_runs (env : Env) (db : DbState) (v : Int) (s : String)
    (hws : ∀ c ∈ s.data, c.isWhitespace)
    (hscript : env.scriptOk (buildScript s) = true)
    (hins : env.insertOk v = true) :
    buildScript s = "DO LANGUAGE \x27plpgsql\x27 $$BEGIN\nperform 1;\nEND$$" ∧
    runMigration env db v s =
      (.ok (), insertIfAbsent v db, [.runScript (buildScript s), .insertVersion v]) ∧
    v ∈ (runMigration env db v s).2.1 ∧
    buildScript "select 1;;" =
      "DO LANGUAGE \x27plpgsql\x27 $$BEGIN\nselect 1;;\nEND$$" := by
  have hb : buildScript s = "DO LANGUAGE \x27plpgsql\x27 $$BEGIN\nperform 1;\nEND$$" := by
    simp only [buildScript, trimChars_eq_nil hws]
    rfl
  have hr : runMigration env db v s =
      (.ok (), insertIfAbsent v db, [.runScript (buildScript s), .insertVersion v]) := by
    unfold runMigration
    simp [hscript, hins]
  refine ⟨hb, hr, ?_, by rfl⟩
  rw [hr]
  exact mem_insertIfAbsent_self v db

/-- Witness for C10: a two-space script runs the no-op block and records
version 9. -/
theorem empty_script_runs_witness :
    runMigration ⟨fun _ => true, fun _ => true⟩ [] 9 "  " =
      (.ok (), insertIfAbsent 9 [], [.runScript (buildScript "  "), .insertVersion 9]) :=
  (empty_script_runs ⟨fun _ => true, fun _ => true⟩ [] 9 "  " (by decide) rfl rfl).2.1

end Pomp
